import Mathlib

/-!
# Verification of the replicated notification log (nflog)

A shallow embedding of `nflog/nflog.go`: the gossip state map and its
LWW merge operators, the notification-log operations (Append/log, GC,
Query, Snapshot/loadSnapshot), the length-delimited codec used both for
snapshots and gossip payloads, and the block-splitting `Encode`.

Byte strings are modelled as `List Nat`, instants as `Int` nanoseconds
since the Unix epoch, and protobuf `Timestamp` values as a pair of
`seconds`/`nanos` integers with the validity window of
`ptypes.Timestamp`.  Go map iteration is modelled by association lists
with pairwise-distinct keys; results about maps are stated pointwise
(via `lookupKey`).  Go panics and returned errors are both modelled with
`Except`.
-/

namespace Nflog

/-- A byte string (Go `[]byte` / `string`); bytes as naturals. -/
abbrev Bytes := List Nat

/-- Protobuf timestamp: seconds and nanoseconds since the Unix epoch
(`google.protobuf.Timestamp`). -/
structure Timestamp where
  seconds : Int
  nanos : Int
deriving DecidableEq, Repr

/-- Valid range enforced by `ptypes.Timestamp` / `ptypes.TimestampProto`:
seconds within [0001-01-01, 10000-01-01) and nanos within [0, 1e9). -/
def tsValid (t : Timestamp) : Bool :=
  decide (-62135596800 ≤ t.seconds) && decide (t.seconds < 253402300800) &&
  decide (0 ≤ t.nanos) && decide (t.nanos < 1000000000)

/-- The instant denoted by a timestamp, in nanoseconds. -/
def tsNanos (t : Timestamp) : Int :=
  t.seconds * 1000000000 + t.nanos

/-- Go `ptypes.Timestamp`: convert a proto timestamp to a time, failing on
out-of-range values. -/
def ptypesTimestamp (t : Timestamp) : Except String Int :=
  if tsValid t then .ok (tsNanos t) else .error "timestamp out of range"

/-- Go `ptypes.TimestampProto`: convert a time (nanoseconds) to a proto
timestamp, failing when it cannot be represented.  `Unix()` floors the
seconds, and with a positive divisor Lean's `Int` `/`/`%` (Euclidean)
agree with Go's flooring. -/
def timestampProto (n : Int) : Except String Timestamp :=
  let t : Timestamp := ⟨n / 1000000000, n % 1000000000⟩
  if tsValid t then .ok t else .error "timestamp out of range"

/-- The `pb.Entry` record.  The receiver is modelled from the spec: an opaque
identifier with a canonical byte-string form (`pb.Receiver` lives in the
external `nflogpb` schema), so `receiver` holds the canonical form. -/
structure Entry where
  receiver : Bytes
  groupKey : Bytes
  groupHash : Bytes
  resolved : Bool
  timestamp : Timestamp
deriving DecidableEq, Repr

/-- The `pb.MeshEntry` record: an entry plus its expiration instant. -/
structure MeshEntry where
  entry : Entry
  expiresAt : Timestamp
deriving DecidableEq, Repr

/-! ## The state map

`gossipData` is a Go map from state key to `*pb.MeshEntry`; we model it
as an association list whose keys are pairwise distinct. -/

/-- Go `gossipData`: the in-memory state map. -/
abbrev GossipData := List (Bytes × MeshEntry)

/-- Map lookup (first matching key). -/
def lookupKey (gd : GossipData) (k : Bytes) : Option MeshEntry :=
  match gd with
  | [] => none
  | (k', e) :: rest => if k' = k then some e else lookupKey rest k

/-- Map assignment `gd[k] = e`: replace the binding if present,
otherwise append it. -/
def setKey (gd : GossipData) (k : Bytes) (e : MeshEntry) : GossipData :=
  match gd with
  | [] => [(k, e)]
  | (k', e') :: rest =>
      if k' = k then (k', e) :: rest else (k', e') :: setKey rest k e

/-- The keys of a state map. -/
def keysOf (gd : GossipData) : List Bytes := gd.map Prod.fst

/-- A well-formed Go map: pairwise-distinct keys. -/
def nodupKeys (gd : GossipData) : Prop := (keysOf gd).Nodup

instance (gd : GossipData) : Decidable (nodupKeys gd) := by
  unfold nodupKeys; infer_instance

/-- All entry timestamps are within the representable range. -/
def wfTimes (gd : GossipData) : Bool :=
  gd.all fun p => tsValid p.2.entry.timestamp

/-- All expiry timestamps are within the representable range. -/
def wfExpires (gd : GossipData) : Bool :=
  gd.all fun p => tsValid p.2.expiresAt

@[simp] theorem lookupKey_nil (k : Bytes) : lookupKey [] k = none := rfl

theorem lookupKey_cons (k' : Bytes) (e : MeshEntry) (rest : GossipData) (k : Bytes) :
    lookupKey ((k', e) :: rest) k = if k' = k then some e else lookupKey rest k := rfl

theorem lookupKey_setKey_self (gd : GossipData) (k : Bytes) (e : MeshEntry) :
    lookupKey (setKey gd k e) k = some e := by
  induction gd with
  | nil => simp [setKey, lookupKey]
  | cons p rest ih =>
      obtain ⟨k', e'⟩ := p
      by_cases h : k' = k <;> simp [setKey, lookupKey, h, ih]

theorem lookupKey_setKey_ne (gd : GossipData) (k : Bytes) (e : MeshEntry)
    (k' : Bytes) (h : k' ≠ k) :
    lookupKey (setKey gd k e) k' = lookupKey gd k' := by
  induction gd with
  | nil => simp [setKey, lookupKey, Ne.symm h]
  | cons p rest ih =>
      obtain ⟨k₀, e₀⟩ := p
      by_cases h0 : k₀ = k
      · rw [show setKey ((k₀, e₀) :: rest) k e = (k₀, e) :: rest from by
          simp [setKey, h0]]
        have hne : k₀ ≠ k' := by rw [h0]; exact Ne.symm h
        rw [lookupKey_cons, lookupKey_cons, if_neg hne, if_neg hne]
      · rw [show setKey ((k₀, e₀) :: rest) k e = (k₀, e₀) :: setKey rest k e from by
          simp [setKey, h0]]
        rw [lookupKey_cons, lookupKey_cons, ih]

theorem keysOf_setKey (gd : GossipData) (k : Bytes) (e : MeshEntry) :
    keysOf (setKey gd k e) = if k ∈ keysOf gd then keysOf gd else keysOf gd ++ [k] := by
  induction gd with
  | nil => simp [setKey, keysOf]
  | cons p rest ih =>
      obtain ⟨k₀, e₀⟩ := p
      by_cases h0 : k₀ = k
      · subst h0; simp [setKey, keysOf]
      · simp only [setKey, if_neg h0, keysOf, List.map_cons] at ih ⊢
        rw [ih]
        by_cases hmem : k ∈ List.map Prod.fst rest
        · simp [hmem, Ne.symm h0]
        · simp [hmem, Ne.symm h0]

theorem nodupKeys_setKey (gd : GossipData) (k : Bytes) (e : MeshEntry)
    (h : nodupKeys gd) : nodupKeys (setKey gd k e) := by
  unfold nodupKeys at *
  rw [keysOf_setKey]
  by_cases hmem : k ∈ keysOf gd
  · rw [if_pos hmem]; exact h
  · rw [if_neg hmem, List.nodup_append]
    refine ⟨h, List.nodup_singleton k, fun a ha hb => ?_⟩
    rw [List.mem_singleton] at hb
    exact hmem (hb ▸ ha)

theorem lookupKey_eq_none_of_not_mem (gd : GossipData) (k : Bytes)
    (h : k ∉ keysOf gd) : lookupKey gd k = none := by
  induction gd with
  | nil => rfl
  | cons p rest ih =>
      obtain ⟨k₀, e₀⟩ := p
      simp only [keysOf, List.map_cons, List.mem_cons, not_or] at h
      rw [lookupKey_cons, if_neg (Ne.symm h.1)]
      exact ih (by simpa [keysOf] using h.2)

theorem mem_keysOf_of_lookupKey (gd : GossipData) (k : Bytes) (e : MeshEntry)
    (h : lookupKey gd k = some e) : k ∈ keysOf gd := by
  by_contra hmem
  rw [lookupKey_eq_none_of_not_mem gd k hmem] at h
  exact Option.noConfusion h

theorem lookupKey_mem (gd : GossipData) (k : Bytes) (e : MeshEntry)
    (h : lookupKey gd k = some e) : (k, e) ∈ gd := by
  induction gd with
  | nil => simp [lookupKey] at h
  | cons p rest ih =>
      obtain ⟨k₀, e₀⟩ := p
      by_cases h0 : k₀ = k
      · rw [lookupKey_cons, if_pos h0] at h
        have he : e₀ = e := Option.some.inj h
        subst he; subst h0
        exact List.mem_cons_self _ _
      · rw [lookupKey_cons, if_neg h0] at h
        exact List.mem_cons_of_mem _ (ih h)

theorem wfTimes_lookup (gd : GossipData) (k : Bytes) (e : MeshEntry)
    (hwf : wfTimes gd = true) (h : lookupKey gd k = some e) :
    tsValid e.entry.timestamp = true := by
  have hmem := lookupKey_mem gd k e h
  exact List.all_eq_true.mp hwf _ hmem

theorem wfExpires_lookup (gd : GossipData) (k : Bytes) (e : MeshEntry)
    (hwf : wfExpires gd = true) (h : lookupKey gd k = some e) :
    tsValid e.expiresAt = true := by
  have hmem := lookupKey_mem gd k e h
  exact List.all_eq_true.mp hwf _ hmem

theorem wfTimes_setKey (gd : GossipData) (k : Bytes) (e : MeshEntry)
    (hwf : wfTimes gd = true) (he : tsValid e.entry.timestamp = true) :
    wfTimes (setKey gd k e) = true := by
  induction gd with
  | nil => simp [setKey, wfTimes, he]
  | cons p rest ih =>
      obtain ⟨k₀, e₀⟩ := p
      simp only [wfTimes, List.all_cons, Bool.and_eq_true] at hwf
      by_cases h0 : k₀ = k
      · simp [setKey, h0, wfTimes, he, hwf.2]
      · simp only [setKey, if_neg h0, wfTimes, List.all_cons, Bool.and_eq_true]
        exact ⟨hwf.1, ih hwf.2⟩


/-! ## Merge and mergeDelta -/

/-- One step of `gossipData.Merge` for a single (key, entry) pair of the
input: insert when absent, otherwise keep the entry with the strictly
larger timestamp (`pts.Before(ets)`).  The panic on a malformed
timestamp is modelled as `Except.error`. -/
def mergeEntry (gd : GossipData) (k : Bytes) (e : MeshEntry) :
    Except String GossipData :=
  match lookupKey gd k with
  | none => .ok (setKey gd k e)
  | some prev =>
      match ptypesTimestamp prev.entry.timestamp with
      | .error s => .error s
      | .ok pts =>
          match ptypesTimestamp e.entry.timestamp with
          | .error s => .error s
          | .ok ets => .ok (if pts < ets then setKey gd k e else gd)

/-- Go `gossipData.Merge`: fold the per-entry merge over the pairs of the
other map (Go map iteration, here in list order). -/
def Merge (gd other : GossipData) : Except String GossipData :=
  other.foldlM (fun acc p => mergeEntry acc p.1 p.2) gd

/-- The pointwise value of the LWW merge. -/
def mergeSpec : Option MeshEntry → Option MeshEntry → Option MeshEntry
  | none, oe => oe
  | some pe, none => some pe
  | some pe, some oe =>
      if tsNanos pe.entry.timestamp < tsNanos oe.entry.timestamp
      then some oe else some pe

@[simp] theorem mergeSpec_none_left (oe : Option MeshEntry) :
    mergeSpec none oe = oe := by cases oe <;> rfl

@[simp] theorem mergeSpec_none_right (pe : Option MeshEntry) :
    mergeSpec pe none = pe := by cases pe <;> rfl

theorem mergeSpec_some_some (pe oe : MeshEntry) :
    mergeSpec (some pe) (some oe) =
      if tsNanos pe.entry.timestamp < tsNanos oe.entry.timestamp
      then some oe else some pe := rfl

/-- Whether merging the pair (k, e) into `gd` changes the map. -/
def changes (gd : GossipData) (k : Bytes) (e : MeshEntry) : Bool :=
  match lookupKey gd k with
  | none => true
  | some p => decide (tsNanos p.entry.timestamp < tsNanos e.entry.timestamp)

theorem mergeEntry_eq (gd : GossipData) (k : Bytes) (e : MeshEntry)
    (he : tsValid e.entry.timestamp = true)
    (hprev : ∀ prev, lookupKey gd k = some prev →
      tsValid prev.entry.timestamp = true) :
    mergeEntry gd k e = .ok (if changes gd k e then setKey gd k e else gd) := by
  unfold mergeEntry changes
  cases hl : lookupKey gd k with
  | none => simp
  | some prev =>
      have h1 := hprev prev hl
      simp [ptypesTimestamp, h1, he]

theorem Merge_nil (gd : GossipData) : Merge gd [] = .ok gd := rfl

theorem Merge_cons (gd : GossipData) (k : Bytes) (e : MeshEntry)
    (rest : GossipData) :
    Merge gd ((k, e) :: rest) =
      mergeEntry gd k e >>= fun gd' => Merge gd' rest := by
  simp [Merge, List.foldlM_cons]

/-- Properties of the per-pair step result under well-formedness. -/
theorem mergeStep_props (gd : GossipData) (k : Bytes) (e : MeshEntry)
    (he : tsValid e.entry.timestamp = true)
    (hwf : wfTimes gd = true) :
    let gd' := if changes gd k e then setKey gd k e else gd
    lookupKey gd' k = mergeSpec (lookupKey gd k) (some e) ∧
    (∀ k', k' ≠ k → lookupKey gd' k' = lookupKey gd k') ∧
    wfTimes gd' = true ∧ (nodupKeys gd → nodupKeys gd') := by
  intro gd'
  have hmain : lookupKey gd' k = mergeSpec (lookupKey gd k) (some e) := by
    show lookupKey (if changes gd k e then setKey gd k e else gd) k = _
    unfold changes
    cases hl : lookupKey gd k with
    | none => simp [lookupKey_setKey_self]
    | some prev =>
        rw [mergeSpec_some_some]
        by_cases hlt : tsNanos prev.entry.timestamp < tsNanos e.entry.timestamp
        · simp [hlt, lookupKey_setKey_self]
        · simp [hlt, hl]
  refine ⟨hmain, fun k' hk' => ?_, ?_, fun hnd => ?_⟩
  · show lookupKey (if changes gd k e then setKey gd k e else gd) k' = _
    by_cases hc : changes gd k e
    · simp [hc, lookupKey_setKey_ne gd k e k' hk']
    · simp [hc]
  · show wfTimes (if changes gd k e then setKey gd k e else gd) = true
    by_cases hc : changes gd k e
    · simp only [hc, if_true]
      exact wfTimes_setKey gd k e hwf he
    · simpa [hc] using hwf
  · show nodupKeys (if changes gd k e then setKey gd k e else gd)
    by_cases hc : changes gd k e
    · simp only [hc, if_true]
      exact nodupKeys_setKey gd k e hnd
    · simpa [hc] using hnd

/-- Main characterization of `Merge`: under well-formed timestamps and a
duplicate-free input it succeeds and its result is the pointwise LWW
merge. -/
theorem Merge_ok (other : GossipData) : ∀ gd : GossipData,
    wfTimes gd = true → wfTimes other = true → nodupKeys other →
    ∃ res, Merge gd other = .ok res ∧ wfTimes res = true ∧
      (nodupKeys gd → nodupKeys res) ∧
      ∀ k, lookupKey res k = mergeSpec (lookupKey gd k) (lookupKey other k) := by
  induction other with
  | nil =>
      intro gd hwf _ _
      exact ⟨gd, Merge_nil gd, hwf, fun h => h, fun k => by simp⟩
  | cons p rest ih =>
      intro gd hwf hwfo hnd
      obtain ⟨k, e⟩ := p
      have he : tsValid e.entry.timestamp = true := by
        have := List.all_eq_true.mp hwfo (k, e) (List.mem_cons_self _ _)
        simpa using this
      have hwfrest : wfTimes rest = true := by
        apply List.all_eq_true.mpr
        intro x hx
        exact List.all_eq_true.mp hwfo x (List.mem_cons_of_mem _ hx)
      have hndc : (k :: keysOf rest).Nodup := by
        have := hnd
        unfold nodupKeys keysOf at this
        rw [List.map_cons] at this
        exact this
      have hknotin : k ∉ keysOf rest := (List.nodup_cons.mp hndc).1
      have hndrest : nodupKeys rest := (List.nodup_cons.mp hndc).2
      have hme := mergeEntry_eq gd k e he (fun prev hp => wfTimes_lookup gd k prev hwf hp)
      obtain ⟨hlk, hlk', hwf', hnd'⟩ := mergeStep_props gd k e he hwf
      set gd' := if changes gd k e then setKey gd k e else gd with hgd'
      obtain ⟨res, hres, hwfres, hndres, hlkres⟩ := ih gd' hwf' hwfrest hndrest
      refine ⟨res, ?_, hwfres, fun h => hndres (hnd' h), ?_⟩
      · rw [Merge_cons, hme]
        simpa using hres
      · intro k''
        by_cases hk : k'' = k
        · subst hk
          rw [hlkres k'', lookupKey_eq_none_of_not_mem rest k'' hknotin,
            mergeSpec_none_right, hlk, lookupKey_cons, if_pos rfl]
        · rw [hlkres k'', hlk' k'' hk, lookupKey_cons, if_neg (Ne.symm hk)]

/-- One step of `gossipData.mergeDelta`: like `mergeEntry`, but also
records the pair into the delta map when it changed the state. -/
def mergeDeltaEntry (gd delta : GossipData) (k : Bytes) (e : MeshEntry) :
    Except String (GossipData × GossipData) :=
  match lookupKey gd k with
  | none => .ok (setKey gd k e, setKey delta k e)
  | some prev =>
      match ptypesTimestamp prev.entry.timestamp with
      | .error s => .error s
      | .ok pts =>
          match ptypesTimestamp e.entry.timestamp with
          | .error s => .error s
          | .ok ets =>
              .ok (if pts < ets then (setKey gd k e, setKey delta k e)
                   else (gd, delta))

/-- Go `gossipData.mergeDelta`: merge `od` into `gd` and return the new
state together with the accumulated delta (Go mutates the receiver and
returns only the delta; we return both). -/
def mergeDelta (gd od : GossipData) : Except String (GossipData × GossipData) :=
  od.foldlM (fun acc p => mergeDeltaEntry acc.1 acc.2 p.1 p.2) (gd, [])

theorem mergeDeltaEntry_eq (gd delta : GossipData) (k : Bytes) (e : MeshEntry)
    (he : tsValid e.entry.timestamp = true)
    (hprev : ∀ prev, lookupKey gd k = some prev →
      tsValid prev.entry.timestamp = true) :
    mergeDeltaEntry gd delta k e =
      .ok (if changes gd k e then (setKey gd k e, setKey delta k e)
           else (gd, delta)) := by
  unfold mergeDeltaEntry changes
  cases hl : lookupKey gd k with
  | none => simp
  | some prev =>
      have h1 := hprev prev hl
      simp [ptypesTimestamp, h1, he]

theorem changes_eq_of_lookup (gd₁ gd₂ : GossipData) (k : Bytes) (e : MeshEntry)
    (h : lookupKey gd₁ k = lookupKey gd₂ k) : changes gd₁ k e = changes gd₂ k e := by
  unfold changes; rw [h]

/-- Main characterization of `mergeDelta` (generalized over the initial
delta accumulator): it succeeds under well-formedness, its state result
is the pointwise LWW merge, and the delta holds exactly the input pairs
that changed the state. -/
theorem mergeDelta_aux (od : GossipData) : ∀ gd delta : GossipData,
    wfTimes gd = true → wfTimes od = true → nodupKeys od →
    ∃ res d,
      od.foldlM (fun acc p => mergeDeltaEntry acc.1 acc.2 p.1 p.2) (gd, delta) =
        .ok (res, d) ∧
      wfTimes res = true ∧ (nodupKeys gd → nodupKeys res) ∧
      (wfTimes delta = true → wfTimes d = true) ∧
      (nodupKeys delta → nodupKeys d) ∧
      (∀ k, lookupKey res k = mergeSpec (lookupKey gd k) (lookupKey od k)) ∧
      (∀ k, lookupKey d k = match lookupKey od k with
        | some e => if changes gd k e then some e else lookupKey delta k
        | none => lookupKey delta k) := by
  induction od with
  | nil =>
      intro gd delta hwf _ _
      exact ⟨gd, delta, rfl, hwf, fun h => h, fun h => h, fun h => h,
        fun k => by simp, fun k => by simp [lookupKey]⟩
  | cons p rest ih =>
      intro gd delta hwf hwfo hnd
      obtain ⟨k, e⟩ := p
      have he : tsValid e.entry.timestamp = true := by
        have := List.all_eq_true.mp hwfo (k, e) (List.mem_cons_self _ _)
        simpa using this
      have hwfrest : wfTimes rest = true := by
        apply List.all_eq_true.mpr
        intro x hx
        exact List.all_eq_true.mp hwfo x (List.mem_cons_of_mem _ hx)
      have hndc : (k :: keysOf rest).Nodup := by
        have := hnd
        unfold nodupKeys keysOf at this
        rw [List.map_cons] at this
        exact this
      have hknotin : k ∉ keysOf rest := (List.nodup_cons.mp hndc).1
      have hndrest : nodupKeys rest := (List.nodup_cons.mp hndc).2
      have hme := mergeDeltaEntry_eq gd delta k e he
        (fun prev hp => wfTimes_lookup gd k prev hwf hp)
      obtain ⟨hlk, hlk', hwf', hnd'⟩ := mergeStep_props gd k e he hwf
      set gd' := if changes gd k e then setKey gd k e else gd with hgd'
      set delta' := if changes gd k e then setKey delta k e else delta with hdelta'
      have hwfd' : wfTimes delta = true → wfTimes delta' = true := by
        intro hwfd
        by_cases hc : changes gd k e
        · rw [hdelta', if_pos hc]
          exact wfTimes_setKey delta k e hwfd he
        · rw [hdelta', if_neg hc]
          exact hwfd
      have hndd' : nodupKeys delta → nodupKeys delta' := by
        intro hndd
        by_cases hc : changes gd k e
        · rw [hdelta', if_pos hc]
          exact nodupKeys_setKey delta k e hndd
        · rw [hdelta', if_neg hc]
          exact hndd
      have hld'_self : lookupKey delta' k =
          if changes gd k e then some e else lookupKey delta k := by
        by_cases hc : changes gd k e
        · rw [hdelta', if_pos hc, if_pos hc, lookupKey_setKey_self]
        · rw [hdelta', if_neg hc, if_neg hc]
      have hld'_ne : ∀ k'', k'' ≠ k → lookupKey delta' k'' = lookupKey delta k'' := by
        intro k'' hk
        by_cases hc : changes gd k e
        · rw [hdelta', if_pos hc, lookupKey_setKey_ne delta k e k'' hk]
        · rw [hdelta', if_neg hc]
      obtain ⟨res, d, hres, hwfres, hndres, hwfd, hndd, hlkres, hlkd⟩ :=
        ih gd' delta' hwf' hwfrest hndrest
      refine ⟨res, d, ?_, hwfres, fun h => hndres (hnd' h),
        fun h => hwfd (hwfd' h), fun h => hndd (hndd' h), ?_, ?_⟩
      · rw [List.foldlM_cons, hme]
        have hpair : (if changes gd k e = true
              then (setKey gd k e, setKey delta k e) else (gd, delta))
            = (gd', delta') := by
          rw [hgd', hdelta']
          by_cases hc : changes gd k e
          · simp [hc]
          · simp [hc]
        rw [hpair]
        simpa using hres
      · intro k''
        by_cases hk : k'' = k
        · subst hk
          rw [hlkres k'', lookupKey_eq_none_of_not_mem rest k'' hknotin,
            mergeSpec_none_right, hlk, lookupKey_cons, if_pos rfl]
        · rw [hlkres k'', hlk' k'' hk, lookupKey_cons, if_neg (Ne.symm hk)]
      · intro k''
        by_cases hk : k'' = k
        · subst hk
          rw [hlkd k'', lookupKey_eq_none_of_not_mem rest k'' hknotin]
          show lookupKey delta' k'' = _
          rw [hld'_self, lookupKey_cons, if_pos rfl]
        · rw [hlkd k'', lookupKey_cons, if_neg (Ne.symm hk)]
          cases hrk : lookupKey rest k'' with
          | none =>
              show lookupKey delta' k'' = lookupKey delta k''
              exact hld'_ne k'' hk
          | some e'' =>
              show (if changes gd' k'' e'' then some e'' else lookupKey delta' k'') = _
              rw [changes_eq_of_lookup gd' gd k'' e'' (hlk' k'' hk), hld'_ne k'' hk]


/-! ## Log core: stateKey, log (Append), GC, Query -/

/-- The separator byte of `stateKey` (the colon of `"%s:%s"`). -/
def sepByte : Nat := 58

/-- Go `stateKey`: the composite key `group_key + separator + canonical(receiver)`.
The canonical receiver form is modelled from the spec: `pb.Receiver` and
its canonical form live in the external `nflogpb` schema; per the spec
the separator byte cannot occur in a canonical receiver form. -/
def stateKey (k : Bytes) (r : Bytes) : Bytes := k ++ sepByte :: r

/-- The store step of Go `nlog.log`: build the timestamp and expiry
protos and assign the new mesh entry under the composite key. -/
def nlogStore (st : GossipData) (now retention : Int) (r gkey ghash : Bytes)
    (resolved : Bool) : Except String GossipData :=
  match timestampProto now with
  | .error s => .error s
  | .ok ts =>
      match timestampProto (now + retention) with
      | .error s => .error s
      | .ok expts =>
          .ok (setKey st (stateKey gkey r) ⟨⟨r, gkey, ghash, resolved, ts⟩, expts⟩)

/-- Go `nlog.log` (the body of `LogActive` / `LogResolved`): store a new
entry for the composite key unless a strictly newer one is present.
The state map, clock value and retention are passed explicitly; the new
state is returned (Go mutates `l.st`). -/
def nlogLog (st : GossipData) (now retention : Int) (r gkey ghash : Bytes)
    (resolved : Bool) : Except String GossipData :=
  match lookupKey st (stateKey gkey r) with
  | some prevle =>
      match ptypesTimestamp prevle.entry.timestamp with
      | .error s => .error s
      | .ok prevts =>
          if now < prevts then .ok st
          else nlogStore st now retention r gkey ghash resolved
  | none => nlogStore st now retention r gkey ghash resolved

/-- Go `nlog.GC`: one pass over the state in iteration order, deleting
every entry whose expiry is not strictly after `now`.  Returns the new
state, the number of deletions, and the error (if any) that aborted the
pass; deletions made before the error persist, as in the source. -/
def nlogGC (now : Int) : GossipData → GossipData × Nat × Option String
  | [] => ([], 0, none)
  | (k, le) :: rest =>
      match ptypesTimestamp le.expiresAt with
      | .error s => ((k, le) :: rest, 0, some s)
      | .ok ets =>
          if ets ≤ now then
            let r := nlogGC now rest
            (r.1, r.2.1 + 1, r.2.2)
          else
            let r := nlogGC now rest
            ((k, le) :: r.1, r.2.1, r.2.2)

/-- Go query parameter setters `QReceiver` / `QGroupKey` (the only two
constructors of `QueryParam` in the source; both always succeed). -/
inductive QueryParam where
  | qReceiver (r : Bytes)
  | qGroupKey (gk : Bytes)
deriving DecidableEq, Repr

/-- The Go `query` descriptor populated by the parameter setters. -/
structure QueryDesc where
  recv : Option Bytes
  groupKey : Option Bytes
deriving DecidableEq, Repr

/-- Application of one parameter setter to the descriptor. -/
def applyParam (q : QueryDesc) : QueryParam → QueryDesc
  | .qReceiver r => { q with recv := some r }
  | .qGroupKey gk => { q with groupKey := some gk }

/-- Errors surfaced by `nlog.Query`: the "no query parameters specified"
failure and the distinct `ErrNotFound` sentinel. -/
inductive QueryError where
  | noParams
  | notFound
deriving DecidableEq, Repr

/-- Go `nlog.Query`: fold the parameter setters over an empty
descriptor; both receiver and group key must be set; then look up the
composite key and return the single entry or `ErrNotFound`. -/
def nlogQuery (st : GossipData) (params : List QueryParam) :
    Except QueryError (List Entry) :=
  let q := params.foldl applyParam ⟨none, none⟩
  match q.recv, q.groupKey with
  | some r, some gk =>
      match lookupKey st (stateKey gk r) with
      | some le => .ok [le.entry]
      | none => .error .notFound
  | _, _ => .error .noParams

/-! ## The entry codec

Modelled from the spec: the `pb.MeshEntry` wire encoding is the external
`nflogpb` schema, an opaque versioned record format that must round-trip
through the codec.  We give it a concrete executable form: fields in
order, byte strings length-prefixed with the same varint as the framing,
booleans as one byte, timestamps as sign-byte + varint pairs.  The
length-delimited framing (`pbutil.WriteDelimited` / `ReadDelimited`) is
the base-128 little-endian MSB-continuation varint of the spec. -/

/-- Fueled worker for `varint` (structural recursion on the fuel keeps
it kernel-reducible; fuel `n` always suffices since `n / 128 < n`). -/
def varintAux : Nat → Nat → List Nat
  | 0, n => [n]
  | fuel + 1, n => if n < 128 then [n] else (n % 128 + 128) :: varintAux fuel (n / 128)

/-- Base-128 little-endian varint with MSB continuation. -/
def varint (n : Nat) : List Nat := varintAux n n

/-- Read a varint from a stream; `none` when the stream ends first. -/
def readVarint : List Nat → Option (Nat × List Nat)
  | [] => none
  | b :: rest =>
      if b < 128 then some (b, rest)
      else
        match readVarint rest with
        | none => none
        | some (m, r) => some ((b - 128) + 128 * m, r)

/-- Length-prefixed byte string. -/
def encBytes (bs : Bytes) : List Nat := varint bs.length ++ bs

/-- Read a length-prefixed byte string. -/
def readBytes (l : List Nat) : Option (Bytes × List Nat) :=
  match readVarint l with
  | none => none
  | some (n, r) => if n ≤ r.length then some (r.take n, r.drop n) else none

/-- Sign byte plus varint of the absolute value. -/
def encInt (i : Int) : List Nat := (if i < 0 then 1 else 0) :: varint i.natAbs

/-- Read a signed integer. -/
def readInt (l : List Nat) : Option (Int × List Nat) :=
  match l with
  | [] => none
  | b :: rest =>
      match readVarint rest with
      | none => none
      | some (m, r) => some (if b = 1 then -(m : Int) else (m : Int), r)

/-- Timestamp as seconds then nanos. -/
def encTs (t : Timestamp) : List Nat := encInt t.seconds ++ encInt t.nanos

/-- Read a timestamp. -/
def readTs (l : List Nat) : Option (Timestamp × List Nat) :=
  match readInt l with
  | none => none
  | some (s, r) =>
      match readInt r with
      | none => none
      | some (ns, r') => some (⟨s, ns⟩, r')

/-- One boolean byte. -/
def encBool (b : Bool) : List Nat := [if b then 1 else 0]

/-- Read a boolean byte. -/
def readBool : List Nat → Option (Bool × List Nat)
  | [] => none
  | b :: rest => some (b == 1, rest)

/-- The canonical binary encoding of a mesh entry. -/
def encodeMeshEntry (e : MeshEntry) : List Nat :=
  encBytes e.entry.receiver ++ encBytes e.entry.groupKey ++
  encBytes e.entry.groupHash ++ encBool e.entry.resolved ++
  encTs e.entry.timestamp ++ encTs e.expiresAt

/-- Decode a mesh entry from exactly the given bytes (the unmarshal of
the record payload; fails unless the payload is consumed entirely). -/
def decodeMeshEntry (l : List Nat) : Option MeshEntry :=
  match readBytes l with
  | none => none
  | some (recv, r1) =>
      match readBytes r1 with
      | none => none
      | some (gkey, r2) =>
          match readBytes r2 with
          | none => none
          | some (ghash, r3) =>
              match readBool r3 with
              | none => none
              | some (resv, r4) =>
                  match readTs r4 with
                  | none => none
                  | some (ts, r5) =>
                      match readTs r5 with
                      | none => none
                      | some (exp, r6) =>
                          if r6 = [] then
                            some ⟨⟨recv, gkey, ghash, resv, ts⟩, exp⟩
                          else none

/-- Go `pbutil.WriteDelimited`: varint length prefix, then the record. -/
def writeDelimited (e : MeshEntry) : List Nat :=
  varint (encodeMeshEntry e).length ++ encodeMeshEntry e

/-- Go `pbutil.ReadDelimited`: `Except.ok none` is `io.EOF` (clean end of
stream); a truncated or malformed record is an error. -/
def readDelimited (bs : List Nat) : Except String (Option (MeshEntry × List Nat)) :=
  match bs with
  | [] => .ok none
  | _ :: _ =>
      match readVarint bs with
      | none => .error "unexpected EOF"
      | some (len, r) =>
          if len ≤ r.length then
            match decodeMeshEntry (r.take len) with
            | some e => .ok (some (e, r.drop len))
            | none => .error "malformed entry"
          else .error "unexpected EOF"

/-! ## Snapshot, load, gossip encode/decode -/

/-- Go `nlog.Snapshot`: the byte stream produced by writing every entry
through the codec (the returned count is its length). -/
def snapshotBytes (st : GossipData) : List Nat :=
  (st.map fun p => writeDelimited p.2).flatten

/-- The shared read loop of `nlog.loadSnapshot` and `decodeGossipData`:
read frames until end-of-stream, keying each decoded entry by the
composite key of its own group key and receiver.  Recursion is fueled;
each frame consumes at least one byte, so fuel `length + 1` suffices. -/
def loadLoop : Nat → GossipData → List Nat → Except String GossipData
  | 0, _, _ => .error "out of fuel"
  | fuel + 1, acc, bs =>
      match readDelimited bs with
      | .error s => .error s
      | .ok none => .ok acc
      | .ok (some (e, rest)) =>
          loadLoop fuel (setKey acc (stateKey e.entry.groupKey e.entry.receiver) e) rest

/-- Go `nlog.loadSnapshot`: decode a snapshot stream into a fresh state. -/
def loadSnapshot (bs : List Nat) : Except String GossipData :=
  loadLoop (bs.length + 1) [] bs

/-- Go `decodeGossipData`: identical loop over a gossip payload. -/
def decodeGossipData (bs : List Nat) : Except String GossipData :=
  loadLoop (bs.length + 1) [] bs

/-- The 1 MiB block bound of `gossipData.Encode`. -/
def maxSize : Nat := 1024 * 1024

/-- The loop of Go `gossipData.Encode`: append each framed entry to the
current buffer, and flush the buffer into the result as soon as the
cumulative byte count `n` (never reset, as in the source) exceeds
`maxSize`; a trailing non-empty buffer becomes a final block. -/
def encodeLoop : GossipData → List Nat → List (List Nat) → Nat → List (List Nat)
  | [], buf, res, _ => if buf.length > 0 then res ++ [buf] else res
  | (_, e) :: rest, buf, res, n =>
      let w := writeDelimited e
      let n' := n + w.length
      if n' > maxSize then encodeLoop rest [] (res ++ [buf ++ w]) n'
      else encodeLoop rest (buf ++ w) res n'

/-- Go `gossipData.Encode`. -/
def gossipEncode (gd : GossipData) : List (List Nat) := encodeLoop gd [] [] 0


/-! ## Codec round-trip lemmas -/

theorem varintAux_ne_nil (fuel n : Nat) : varintAux fuel n ≠ [] := by
  cases fuel with
  | zero => simp [varintAux]
  | succ f =>
      show (if n < 128 then [n] else (n % 128 + 128) :: varintAux f (n / 128)) ≠ []
      by_cases h : n < 128
      · simp [h]
      · simp [h]

theorem varint_ne_nil (n : Nat) : varint n ≠ [] := varintAux_ne_nil n n

theorem readVarint_varintAux : ∀ (fuel n : Nat) (rest : List Nat), n ≤ fuel →
    readVarint (varintAux fuel n ++ rest) = some (n, rest) := by
  intro fuel
  induction fuel with
  | zero =>
      intro n rest hn
      have : n = 0 := Nat.le_zero.mp hn
      subst this
      simp [varintAux, readVarint]
  | succ f ih =>
      intro n rest hn
      show readVarint ((if n < 128 then [n]
        else (n % 128 + 128) :: varintAux f (n / 128)) ++ rest) = some (n, rest)
      by_cases h : n < 128
      · simp [h, readVarint]
      · rw [if_neg h]
        have hlt : n / 128 < n := Nat.div_lt_self (by omega) (by norm_num)
        have hb : ¬ (n % 128 + 128 < 128) := by omega
        rw [List.cons_append, readVarint, if_neg hb, ih (n / 128) rest (by omega)]
        have hval : n % 128 + 128 - 128 + 128 * (n / 128) = n := by omega
        simp only [hval]

theorem readVarint_varint (n : Nat) (rest : List Nat) :
    readVarint (varint n ++ rest) = some (n, rest) :=
  readVarint_varintAux n n rest (Nat.le_refl n)

theorem readBytes_encBytes (bs : Bytes) (rest : List Nat) :
    readBytes (encBytes bs ++ rest) = some (bs, rest) := by
  unfold encBytes readBytes
  rw [List.append_assoc, readVarint_varint]
  simp [List.take_left, List.drop_left]

theorem readInt_encInt (i : Int) (rest : List Nat) :
    readInt (encInt i ++ rest) = some (i, rest) := by
  unfold encInt readInt
  by_cases h : i < 0
  · rw [if_pos h]
    simp only [List.cons_append, readVarint_varint]
    have hnn : ((i.natAbs : Int)) = -i := by
      rw [Int.ofNat_natAbs_of_nonpos (le_of_lt h)]
    simp [hnn]
  · rw [if_neg h]
    simp only [List.cons_append, readVarint_varint]
    have hnn : ((i.natAbs : Int)) = i := Int.natAbs_of_nonneg (le_of_not_lt h)
    simp [hnn]

theorem readTs_encTs (t : Timestamp) (rest : List Nat) :
    readTs (encTs t ++ rest) = some (t, rest) := by
  unfold encTs readTs
  simp only [List.append_assoc, readInt_encInt]

theorem readBool_encBool (b : Bool) (rest : List Nat) :
    readBool (encBool b ++ rest) = some (b, rest) := by
  cases b <;> rfl

theorem decodeMeshEntry_encodeMeshEntry (e : MeshEntry) :
    decodeMeshEntry (encodeMeshEntry e) = some e := by
  obtain ⟨⟨recv, gkey, ghash, resv, ts⟩, exp⟩ := e
  show decodeMeshEntry (encBytes recv ++ encBytes gkey ++ encBytes ghash ++
    encBool resv ++ encTs ts ++ encTs exp) = _
  rw [show encTs exp = encTs exp ++ [] from (List.append_nil _).symm]
  unfold decodeMeshEntry
  simp only [List.append_assoc, readBytes_encBytes, readBool_encBool, readTs_encTs]
  simp

theorem writeDelimited_ne_nil (e : MeshEntry) : writeDelimited e ≠ [] := by
  unfold writeDelimited
  intro hcon
  exact varint_ne_nil _ (List.append_eq_nil.mp hcon).1

theorem readDelimited_eq_of_ne_nil (bs : List Nat) (h : bs ≠ []) :
    readDelimited bs =
      match readVarint bs with
      | none => .error "unexpected EOF"
      | some (len, r) =>
          if len ≤ r.length then
            match decodeMeshEntry (r.take len) with
            | some e => .ok (some (e, r.drop len))
            | none => .error "malformed entry"
          else .error "unexpected EOF" := by
  cases bs with
  | nil => exact absurd rfl h
  | cons b tail => rfl

theorem readDelimited_writeDelimited (e : MeshEntry) (rest : List Nat) :
    readDelimited (writeDelimited e ++ rest) = .ok (some (e, rest)) := by
  have hne : writeDelimited e ++ rest ≠ [] := by
    intro hcon
    exact writeDelimited_ne_nil e (List.append_eq_nil.mp hcon).1
  rw [readDelimited_eq_of_ne_nil _ hne]
  show (match readVarint (writeDelimited e ++ rest) with
      | none => Except.error "unexpected EOF"
      | some (len, r) =>
          if len ≤ r.length then
            match decodeMeshEntry (r.take len) with
            | some e => Except.ok (some (e, r.drop len))
            | none => Except.error "malformed entry"
          else Except.error "unexpected EOF") = _
  unfold writeDelimited
  rw [List.append_assoc, readVarint_varint]
  simp only [List.take_left, List.drop_left, decodeMeshEntry_encodeMeshEntry,
    if_pos (by simp : (encodeMeshEntry e).length ≤ (encodeMeshEntry e ++ rest).length)]

/-! ## Snapshot round-trip lemmas -/

/-- The bytes of one chunk of entries, each framed by the codec. -/
def blockBytes (c : List MeshEntry) : List Nat := (c.map writeDelimited).flatten

theorem blockBytes_nil : blockBytes [] = [] := rfl

theorem blockBytes_append (c₁ c₂ : List MeshEntry) :
    blockBytes (c₁ ++ c₂) = blockBytes c₁ ++ blockBytes c₂ := by
  unfold blockBytes
  rw [List.map_append, List.flatten_append]

theorem length_le_blockBytes (es : List MeshEntry) :
    es.length ≤ (blockBytes es).length := by
  induction es with
  | nil => simp [blockBytes]
  | cons e rest ih =>
      have hpos : 0 < (writeDelimited e).length :=
        List.length_pos.mpr (writeDelimited_ne_nil e)
      have : blockBytes (e :: rest) = writeDelimited e ++ blockBytes rest := by
        unfold blockBytes
        rw [List.map_cons]
        rfl
      rw [this, List.length_append, List.length_cons]
      omega

theorem loadLoop_blockBytes (es : List MeshEntry) : ∀ (fuel : Nat) (acc : GossipData),
    es.length < fuel →
    loadLoop fuel acc (blockBytes es) =
      .ok (es.foldl
        (fun m e => setKey m (stateKey e.entry.groupKey e.entry.receiver) e) acc) := by
  induction es with
  | nil =>
      intro fuel acc hf
      cases fuel with
      | zero => omega
      | succ f => simp [loadLoop, blockBytes, readDelimited]
  | cons e rest ih =>
      intro fuel acc hf
      cases fuel with
      | zero => omega
      | succ f =>
          have hbb : blockBytes (e :: rest) = writeDelimited e ++ blockBytes rest := by
            unfold blockBytes
            rw [List.map_cons]
            rfl
          rw [hbb]
          have hstep : loadLoop (f + 1) acc (writeDelimited e ++ blockBytes rest) =
              loadLoop f (setKey acc (stateKey e.entry.groupKey e.entry.receiver) e)
                (blockBytes rest) := by
            show (match readDelimited (writeDelimited e ++ blockBytes rest) with
              | .error s => Except.error s
              | .ok none => .ok acc
              | .ok (some (e', rest')) =>
                  loadLoop f (setKey acc (stateKey e'.entry.groupKey e'.entry.receiver) e') rest') = _
            rw [readDelimited_writeDelimited]
          rw [hstep, ih f _ (by simpa using Nat.lt_of_succ_lt_succ hf)]
          rfl

/-- Insertion of a fresh key appends the binding. -/
theorem setKey_not_mem (gd : GossipData) (k : Bytes) (e : MeshEntry)
    (h : k ∉ keysOf gd) : setKey gd k e = gd ++ [(k, e)] := by
  induction gd with
  | nil => rfl
  | cons p rest ih =>
      obtain ⟨k₀, e₀⟩ := p
      simp only [keysOf, List.map_cons, List.mem_cons, not_or] at h
      rw [show setKey ((k₀, e₀) :: rest) k e = (k₀, e₀) :: setKey rest k e from by
        simp [setKey, Ne.symm h.1]]
      rw [ih (by simpa [keysOf] using h.2), List.cons_append]

/-- Rebuilding a self-keyed, duplicate-free state from its entry list
reproduces it exactly. -/
theorem buildState_eq (st : GossipData)
    (hkeys : ∀ p ∈ st, p.1 = stateKey p.2.entry.groupKey p.2.entry.receiver)
    (hnd : nodupKeys st) : ∀ acc : GossipData,
    (∀ k, k ∈ keysOf st → k ∉ keysOf acc) →
    (st.map Prod.snd).foldl
      (fun m e => setKey m (stateKey e.entry.groupKey e.entry.receiver) e) acc
      = acc ++ st := by
  induction st with
  | nil => intro acc _; simp
  | cons p rest ih =>
      intro acc hfresh
      obtain ⟨k₀, e₀⟩ := p
      have hk₀ : k₀ = stateKey e₀.entry.groupKey e₀.entry.receiver :=
        hkeys (k₀, e₀) (List.mem_cons_self _ _)
      have hndc : (k₀ :: keysOf rest).Nodup := by
        have := hnd
        unfold nodupKeys keysOf at this
        rw [List.map_cons] at this
        exact this
      have hk₀notin : k₀ ∉ keysOf rest := (List.nodup_cons.mp hndc).1
      have hndrest : nodupKeys rest := (List.nodup_cons.mp hndc).2
      have hfresh₀ : k₀ ∉ keysOf acc := hfresh k₀ (by simp [keysOf])
      rw [List.map_cons, List.foldl_cons, ← hk₀, setKey_not_mem acc k₀ e₀ hfresh₀]
      have hrest := ih (fun q hq => hkeys q (List.mem_cons_of_mem _ hq)) hndrest
        (acc ++ [(k₀, e₀)])
        (by
          intro k hk
          have hkne : k ≠ k₀ := by
            intro hcon
            exact hk₀notin (hcon ▸ hk)
          have hknacc : k ∉ keysOf acc := hfresh k (by
            show k ∈ keysOf ((k₀, e₀) :: rest)
            unfold keysOf
            rw [List.map_cons]
            exact List.mem_cons_of_mem _ hk)
          unfold keysOf
          rw [List.map_append]
          simp only [List.mem_append, not_or]
          exact ⟨by simpa [keysOf] using hknacc, by simpa using hkne⟩)
      rw [hrest, List.append_assoc]
      rfl

/-- Snapshot bytes are the frames of the entry list. -/
theorem snapshotBytes_eq (st : GossipData) :
    snapshotBytes st = blockBytes (st.map Prod.snd) := by
  unfold snapshotBytes blockBytes
  rw [List.map_map]
  rfl

/-- Loading the snapshot of a self-keyed, duplicate-free state yields
the state back. -/
theorem loadSnapshot_snapshotBytes (st : GossipData)
    (hkeys : ∀ p ∈ st, p.1 = stateKey p.2.entry.groupKey p.2.entry.receiver)
    (hnd : nodupKeys st) :
    loadSnapshot (snapshotBytes st) = .ok st := by
  unfold loadSnapshot
  rw [snapshotBytes_eq]
  have hlen : (st.map Prod.snd).length < (blockBytes (st.map Prod.snd)).length + 1 :=
    Nat.lt_succ_of_le (length_le_blockBytes _)
  rw [loadLoop_blockBytes _ _ _ hlen]
  rw [buildState_eq st hkeys hnd [] (by intro k _; simp [keysOf])]
  rfl

/-! ## Encode block structure -/

/-- The loop of `gossipData.Encode` abstracted to chunks of entries:
`encodeLoop` is its image under `blockBytes`. -/
def chunkLoop : List MeshEntry → List MeshEntry → List (List MeshEntry) → Nat →
    List (List MeshEntry)
  | [], buf, res, _ => if 0 < buf.length then res ++ [buf] else res
  | e :: rest, buf, res, n =>
      let m := (writeDelimited e).length
      if n + m > maxSize then chunkLoop rest [] (res ++ [buf ++ [e]]) (n + m)
      else chunkLoop rest (buf ++ [e]) res (n + m)

theorem blockBytes_length_pos (c : List MeshEntry) (h : c ≠ []) :
    0 < (blockBytes c).length := by
  have := length_le_blockBytes c
  have hc : 0 < c.length := List.length_pos.mpr h
  omega

theorem encodeLoop_eq_chunkLoop : ∀ (gd : GossipData) (bufE : List MeshEntry)
    (resE : List (List MeshEntry)) (n : Nat),
    encodeLoop gd (blockBytes bufE) (resE.map blockBytes) n =
      (chunkLoop (gd.map Prod.snd) bufE resE n).map blockBytes := by
  intro gd
  induction gd with
  | nil =>
      intro bufE resE n
      show (if 0 < (blockBytes bufE).length then
          resE.map blockBytes ++ [blockBytes bufE] else resE.map blockBytes) = _
      rw [List.map_nil]
      show _ = (if 0 < bufE.length then resE ++ [bufE] else resE).map blockBytes
      by_cases hb : bufE = []
      · subst hb
        rw [if_neg (by simp [blockBytes]), if_neg (by simp)]
      · rw [if_pos (blockBytes_length_pos bufE hb), if_pos (List.length_pos.mpr hb),
          List.map_append]
        rfl
  | cons p rest ih =>
      intro bufE resE n
      obtain ⟨k, e⟩ := p
      show (if n + (writeDelimited e).length > maxSize then
          encodeLoop rest [] (resE.map blockBytes ++ [blockBytes bufE ++ writeDelimited e])
            (n + (writeDelimited e).length)
        else encodeLoop rest (blockBytes bufE ++ writeDelimited e) (resE.map blockBytes)
            (n + (writeDelimited e).length)) = _
      rw [List.map_cons]
      show _ = (if n + (writeDelimited e).length > maxSize then
          chunkLoop (rest.map Prod.snd) [] (resE ++ [bufE ++ [e]])
            (n + (writeDelimited e).length)
        else chunkLoop (rest.map Prod.snd) (bufE ++ [e]) resE
            (n + (writeDelimited e).length)).map blockBytes
      have hbb : blockBytes bufE ++ writeDelimited e = blockBytes (bufE ++ [e]) := by
        rw [blockBytes_append]
        show _ = blockBytes bufE ++ (writeDelimited e ++ [])
        rw [List.append_nil]
      by_cases hc : n + (writeDelimited e).length > maxSize
      · rw [if_pos hc, if_pos hc]
        have hres : resE.map blockBytes ++ [blockBytes bufE ++ writeDelimited e] =
            (resE ++ [bufE ++ [e]]).map blockBytes := by
          rw [List.map_append, hbb]
          rfl
        rw [hres, show ([] : List Nat) = blockBytes [] from rfl, ih]
      · rw [if_neg hc, if_neg hc, hbb, ih]

/-- Every chunk emitted by the loop is non-empty and fits in `maxSize`
after dropping its final entry, and the chunks enumerate exactly the
remaining entries after those already flushed and buffered. -/
theorem chunkLoop_nil (buf : List MeshEntry) (res : List (List MeshEntry)) (n : Nat) :
    chunkLoop [] buf res n = if 0 < buf.length then res ++ [buf] else res := rfl

theorem chunkLoop_cons (e : MeshEntry) (rest buf : List MeshEntry)
    (res : List (List MeshEntry)) (n : Nat) :
    chunkLoop (e :: rest) buf res n =
      if n + (writeDelimited e).length > maxSize then
        chunkLoop rest [] (res ++ [buf ++ [e]]) (n + (writeDelimited e).length)
      else chunkLoop rest (buf ++ [e]) res (n + (writeDelimited e).length) := rfl

theorem chunkLoop_props : ∀ (es buf : List MeshEntry)
    (res : List (List MeshEntry)) (n : Nat),
    ((res = [] ∧ n = (blockBytes buf).length ∧ n ≤ maxSize) ∨
      (res ≠ [] ∧ buf = [] ∧ n > maxSize)) →
    (∀ c ∈ res, c ≠ [] ∧ (blockBytes c.dropLast).length ≤ maxSize) →
    (chunkLoop es buf res n).flatten = res.flatten ++ buf ++ es ∧
    ∀ c ∈ chunkLoop es buf res n,
      c ≠ [] ∧ (blockBytes c.dropLast).length ≤ maxSize := by
  intro es
  induction es with
  | nil =>
      intro buf res n hinv hres
      rw [chunkLoop_nil]
      by_cases hb : buf = []
      · subst hb
        rw [if_neg (by simp)]
        exact ⟨by simp, hres⟩
      · rw [if_pos (List.length_pos.mpr hb)]
        constructor
        · rw [List.flatten_append]
          simp
        · intro c hcmem
          rcases List.mem_append.mp hcmem with hcl | hcr
          · exact hres c hcl
          · rw [List.mem_singleton] at hcr
            subst hcr
            refine ⟨hb, ?_⟩
            rcases hinv with ⟨_, hn, hnle⟩ | ⟨_, hbuf, _⟩
            · calc (blockBytes c.dropLast).length
                  ≤ (blockBytes c).length := by
                    conv_rhs => rw [← List.dropLast_append_getLast hb]
                    rw [blockBytes_append, List.length_append]
                    omega
                _ ≤ maxSize := by omega
            · exact absurd hbuf hb
  | cons e rest ih =>
      intro buf res n hinv hres
      rw [chunkLoop_cons]
      by_cases hc : n + (writeDelimited e).length > maxSize
      · rw [if_pos hc]
        have hresnew : ∀ c ∈ res ++ [buf ++ [e]],
            c ≠ [] ∧ (blockBytes c.dropLast).length ≤ maxSize := by
          intro c hcmem
          rcases List.mem_append.mp hcmem with hcl | hcr
          · exact hres c hcl
          · rw [List.mem_singleton] at hcr
            subst hcr
            refine ⟨by simp, ?_⟩
            rw [List.dropLast_concat]
            rcases hinv with ⟨_, hn, hnle⟩ | ⟨_, hbuf, _⟩
            · omega
            · subst hbuf
              simp [blockBytes, maxSize]
        have hinvnew : ((res ++ [buf ++ [e]] = [] ∧
              n + (writeDelimited e).length = (blockBytes []).length ∧
              n + (writeDelimited e).length ≤ maxSize) ∨
            (res ++ [buf ++ [e]] ≠ [] ∧ ([] : List MeshEntry) = [] ∧
              n + (writeDelimited e).length > maxSize)) :=
          Or.inr ⟨by simp, rfl, hc⟩
        obtain ⟨hflat, hblocks⟩ := ih [] (res ++ [buf ++ [e]])
          (n + (writeDelimited e).length) hinvnew hresnew
        refine ⟨?_, hblocks⟩
        rw [hflat, List.flatten_append]
        simp
      · rw [if_neg hc]
        have hinvnew : ((res = [] ∧
              n + (writeDelimited e).length = (blockBytes (buf ++ [e])).length ∧
              n + (writeDelimited e).length ≤ maxSize) ∨
            (res ≠ [] ∧ buf ++ [e] = [] ∧ n + (writeDelimited e).length > maxSize)) := by
          rcases hinv with ⟨hre, hn, _⟩ | ⟨_, _, hgt⟩
          · refine Or.inl ⟨hre, ?_, by omega⟩
            rw [blockBytes_append, List.length_append, hn]
            have : blockBytes [e] = writeDelimited e ++ [] := rfl
            rw [this, List.append_nil]
          · omega
        obtain ⟨hflat, hblocks⟩ := ih (buf ++ [e]) res
          (n + (writeDelimited e).length) hinvnew hres
        refine ⟨?_, hblocks⟩
        rw [hflat]
        simp

/-- Structure of `gossipData.Encode`: its blocks are the byte images of
a chunking of the entry list. -/
theorem gossipEncode_chunks (gd : GossipData) :
    gossipEncode gd = (chunkLoop (gd.map Prod.snd) [] [] 0).map blockBytes ∧
    (chunkLoop (gd.map Prod.snd) [] [] 0).flatten = gd.map Prod.snd ∧
    ∀ c ∈ chunkLoop (gd.map Prod.snd) [] [] 0,
      c ≠ [] ∧ (blockBytes c.dropLast).length ≤ maxSize := by
  have h1 : gossipEncode gd = (chunkLoop (gd.map Prod.snd) [] [] 0).map blockBytes := by
    have := encodeLoop_eq_chunkLoop gd [] [] 0
    simpa [gossipEncode, blockBytes] using this
  have h2 := chunkLoop_props (gd.map Prod.snd) [] [] 0
    (Or.inl ⟨rfl, by simp [blockBytes], by simp [maxSize]⟩) (by simp)
  exact ⟨h1, by simpa using h2.1, h2.2⟩

theorem flatten_map_blockBytes (chunks : List (List MeshEntry)) :
    (chunks.map blockBytes).flatten = blockBytes chunks.flatten := by
  induction chunks with
  | nil => rfl
  | cons c cs ih =>
      rw [List.map_cons, List.flatten_cons, List.flatten_cons, blockBytes_append, ih]

/-! ## Sample data for the closed instances -/

/-- A second-resolution timestamp. -/
def sampleTs (sec : Int) : Timestamp := ⟨sec, 0⟩

/-- A small sample mesh entry with the given timestamp (in seconds). -/
def sampleEntry (sec : Int) : MeshEntry :=
  ⟨⟨[114], [103], [104], false, sampleTs sec⟩, sampleTs (sec + 1)⟩

/-! ## Claim C1: Merge semantics -/

/-- C1: for well-formed state maps, `Merge` inserts every pair of the
input whose key is absent; for a present key it keeps the entry with the
strictly larger timestamp, and on equal timestamps the incumbent is
preserved — the stored entry is never replaced by one with an equal or
smaller timestamp. -/
theorem C1_merge_lww (gd other res : GossipData)
    (hwf : wfTimes gd = true) (hwfo : wfTimes other = true)
    (hnd : nodupKeys other) (hres : Merge gd other = .ok res) (k : Bytes) :
    lookupKey res k =
      match lookupKey gd k, lookupKey other k with
      | none, oe => oe
      | some pe, none => some pe
      | some pe, some oe =>
          if tsNanos pe.entry.timestamp < tsNanos oe.entry.timestamp
          then some oe else some pe := by
  obtain ⟨res', hres', _, _, hlk⟩ := Merge_ok other gd hwf hwfo hnd
  rw [hres] at hres'
  have heq : res = res' := Except.ok.inj hres'
  subst heq
  rw [hlk k]
  cases lookupKey gd k <;> cases lookupKey other k <;> rfl

theorem C1_merge_lww_witness :
    lookupKey [([107], sampleEntry 7)] [107] =
      match lookupKey [([107], sampleEntry 5)] [107],
            lookupKey [([107], sampleEntry 7)] [107] with
      | none, oe => oe
      | some pe, none => some pe
      | some pe, some oe =>
          if tsNanos pe.entry.timestamp < tsNanos oe.entry.timestamp
          then some oe else some pe :=
  C1_merge_lww [([107], sampleEntry 5)] [([107], sampleEntry 7)]
    [([107], sampleEntry 7)] (by decide) (by decide) (by decide) rfl [107]

/-! ## Claim C2: Append (log) semantics -/

/-- C2: at clock `now`, `nlog.log` is a nil-returning no-op when the
stored entry's timestamp is strictly after `now`, and otherwise stores a
fresh mesh entry with timestamp `now` and expiry `now + retention`. -/
theorem C2_append (st : GossipData) (now retention : Int)
    (r gkey ghash : Bytes) (resolved : Bool)
    (hwf : wfTimes st = true)
    (hnow : tsValid ⟨now / 1000000000, now % 1000000000⟩ = true)
    (hexp : tsValid ⟨(now + retention) / 1000000000,
      (now + retention) % 1000000000⟩ = true) :
    (∀ prev, lookupKey st (stateKey gkey r) = some prev →
        now < tsNanos prev.entry.timestamp →
        nlogLog st now retention r gkey ghash resolved = .ok st) ∧
    ((∀ prev, lookupKey st (stateKey gkey r) = some prev →
        tsNanos prev.entry.timestamp ≤ now) →
      ∃ ts expts,
        nlogLog st now retention r gkey ghash resolved =
          .ok (setKey st (stateKey gkey r)
            ⟨⟨r, gkey, ghash, resolved, ts⟩, expts⟩) ∧
        tsNanos ts = now ∧ tsNanos expts = now + retention) := by
  have hpn : timestampProto now = .ok ⟨now / 1000000000, now % 1000000000⟩ := by
    simp only [timestampProto]
    rw [hnow]
    rfl
  have hpe : timestampProto (now + retention) =
      .ok ⟨(now + retention) / 1000000000, (now + retention) % 1000000000⟩ := by
    simp only [timestampProto]
    rw [hexp]
    rfl
  have hstore : nlogStore st now retention r gkey ghash resolved =
      .ok (setKey st (stateKey gkey r)
        ⟨⟨r, gkey, ghash, resolved, ⟨now / 1000000000, now % 1000000000⟩⟩,
          ⟨(now + retention) / 1000000000, (now + retention) % 1000000000⟩⟩) := by
    simp only [nlogStore, hpn, hpe]
  have htsn : tsNanos ⟨now / 1000000000, now % 1000000000⟩ = now := by
    show now / 1000000000 * 1000000000 + now % 1000000000 = now
    have := Int.ediv_add_emod now 1000000000
    omega
  have htse : tsNanos ⟨(now + retention) / 1000000000,
      (now + retention) % 1000000000⟩ = now + retention := by
    show (now + retention) / 1000000000 * 1000000000 +
      (now + retention) % 1000000000 = now + retention
    have := Int.ediv_add_emod (now + retention) 1000000000
    omega
  constructor
  · intro prev hprev hgt
    have hv : tsValid prev.entry.timestamp = true := wfTimes_lookup _ _ _ hwf hprev
    have hpt : ptypesTimestamp prev.entry.timestamp =
        .ok (tsNanos prev.entry.timestamp) := by
      unfold ptypesTimestamp
      rw [hv]
      rfl
    simp only [nlogLog, hprev, hpt, if_pos hgt]
  · intro hle
    refine ⟨⟨now / 1000000000, now % 1000000000⟩,
      ⟨(now + retention) / 1000000000, (now + retention) % 1000000000⟩, ?_, htsn, htse⟩
    cases hlp : lookupKey st (stateKey gkey r) with
    | none => simp only [nlogLog, hlp, hstore]
    | some prev =>
        have hv : tsValid prev.entry.timestamp = true := wfTimes_lookup _ _ _ hwf hlp
        have hpt : ptypesTimestamp prev.entry.timestamp =
            .ok (tsNanos prev.entry.timestamp) := by
          unfold ptypesTimestamp
          rw [hv]
          rfl
        simp only [nlogLog, hlp, hpt, if_neg (not_lt_of_le (hle prev hlp)), hstore]

/-- The stored entry of scenario S2: timestamp 100 ns. -/
def entry100 : MeshEntry := ⟨⟨[114], [107], [104], false, ⟨0, 100⟩⟩, ⟨0, 100⟩⟩

theorem C2_append_witness :
    nlogLog [(stateKey [107] [114], entry100)] 50 3600 [114] [107] [104] false =
      .ok [(stateKey [107] [114], entry100)] := by
  have h := C2_append [(stateKey [107] [114], entry100)] 50 3600 [114] [107] [104]
    false (by decide) (by decide) (by decide)
  exact h.1 entry100 (by decide) (by decide)

/-! ## Claim C9: composite-key injectivity -/

theorem stateKey_parts : ∀ (k1 k2 r1 r2 : Bytes), sepByte ∉ r1 → sepByte ∉ r2 →
    k1 ++ sepByte :: r1 = k2 ++ sepByte :: r2 → k1 = k2 ∧ r1 = r2 := by
  intro k1
  induction k1 with
  | nil =>
      intro k2 r1 r2 h1 h2 heq
      cases k2 with
      | nil =>
          rw [List.nil_append, List.nil_append] at heq
          exact ⟨rfl, (List.cons.inj heq).2⟩
      | cons b k2' =>
          rw [List.nil_append, List.cons_append] at heq
          obtain ⟨hb, hrest⟩ := List.cons.inj heq
          exfalso
          apply h1
          rw [hrest]
          exact List.mem_append.mpr (Or.inr (List.mem_cons_self _ _))
  | cons a k1' ih =>
      intro k2 r1 r2 h1 h2 heq
      cases k2 with
      | nil =>
          rw [List.cons_append, List.nil_append] at heq
          obtain ⟨hb, hrest⟩ := List.cons.inj heq
          exfalso
          apply h2
          rw [← hrest]
          exact List.mem_append.mpr (Or.inr (List.mem_cons_self _ _))
      | cons b k2' =>
          rw [List.cons_append, List.cons_append] at heq
          obtain ⟨hb, hrest⟩ := List.cons.inj heq
          obtain ⟨hk, hr⟩ := ih k2' r1 r2 h1 h2 hrest
          exact ⟨by rw [hb, hk], hr⟩

/-- C9: the composite key of `stateKey` is injective on pairs whose
canonical receiver forms do not contain the separator byte. -/
theorem C9_stateKey_injective (k1 r1 k2 r2 : Bytes)
    (h1 : sepByte ∉ r1) (h2 : sepByte ∉ r2)
    (hne : k1 ≠ k2 ∨ r1 ≠ r2) :
    stateKey k1 r1 ≠ stateKey k2 r2 := by
  intro heq
  obtain ⟨hk, hr⟩ := stateKey_parts k1 k2 r1 r2 h1 h2 heq
  rcases hne with h | h
  · exact h hk
  · exact h hr

theorem C9_stateKey_injective_witness :
    stateKey [97] [98] ≠ stateKey [97] [99] :=
  C9_stateKey_injective [97] [98] [97] [99] (by decide) (by decide)
    (Or.inr (by decide))

/-! ## Claim C10: GC is not atomic on error -/

/-- C10: when the scan hits a malformed expiry timestamp, `GC` returns
the error immediately; every expired entry visited before the malformed
one stays deleted, and the count reports exactly those deletions. -/
theorem nlogGC_cons (now : Int) (k : Bytes) (le : MeshEntry) (rest : GossipData) :
    nlogGC now ((k, le) :: rest) =
      match ptypesTimestamp le.expiresAt with
      | .error s => ((k, le) :: rest, 0, some s)
      | .ok ets =>
          if ets ≤ now then
            ((nlogGC now rest).1, (nlogGC now rest).2.1 + 1, (nlogGC now rest).2.2)
          else
            ((k, le) :: (nlogGC now rest).1, (nlogGC now rest).2.1,
              (nlogGC now rest).2.2) := rfl

theorem C10_gc_partial (pre post : GossipData) (k : Bytes) (bad : MeshEntry)
    (now : Int) (hwf : wfExpires pre = true)
    (hbad : tsValid bad.expiresAt = false) :
    nlogGC now (pre ++ (k, bad) :: post) =
      (pre.filter (fun p => decide (now < tsNanos p.2.expiresAt)) ++ (k, bad) :: post,
       (pre.filter (fun p => decide (tsNanos p.2.expiresAt ≤ now))).length,
       some "timestamp out of range") := by
  induction pre with
  | nil =>
      have hbadpt : ptypesTimestamp bad.expiresAt =
          .error "timestamp out of range" := by
        unfold ptypesTimestamp
        rw [hbad]
        rfl
      rw [List.nil_append]
      simp only [nlogGC_cons, hbadpt]
      simp
  | cons p rest ih =>
      obtain ⟨k₀, e₀⟩ := p
      have hv : tsValid e₀.expiresAt = true := by
        have := List.all_eq_true.mp hwf (k₀, e₀) (List.mem_cons_self _ _)
        simpa using this
      have hwfrest : wfExpires rest = true := by
        apply List.all_eq_true.mpr
        intro x hx
        exact List.all_eq_true.mp hwf x (List.mem_cons_of_mem _ hx)
      have hpt : ptypesTimestamp e₀.expiresAt = .ok (tsNanos e₀.expiresAt) := by
        unfold ptypesTimestamp
        rw [hv]
        rfl
      rw [List.cons_append]
      simp only [nlogGC_cons, hpt]
      by_cases hle : tsNanos e₀.expiresAt ≤ now
      · rw [if_pos hle, ih hwfrest,
          List.filter_cons_of_neg (by simpa using not_lt_of_le hle),
          List.filter_cons_of_pos (by simpa using hle)]
        rfl
      · rw [if_neg hle, ih hwfrest,
          List.filter_cons_of_pos (by simpa using lt_of_not_le hle),
          List.filter_cons_of_neg (by simpa using hle)]
        rfl

/-- An entry already expired at clock 100 ns. -/
def expiredEntry : MeshEntry := ⟨⟨[], [], [], false, ⟨0, 1⟩⟩, ⟨0, 50⟩⟩

/-- An entry with a malformed (negative-nanos) expiry timestamp. -/
def malformedEntry : MeshEntry := ⟨⟨[], [], [], false, ⟨0, 1⟩⟩, ⟨0, -1⟩⟩

theorem C10_gc_partial_witness :
    nlogGC 100 [([1], expiredEntry), ([2], malformedEntry)] =
      ([([2], malformedEntry)], 1, some "timestamp out of range") := by
  have h := C10_gc_partial [([1], expiredEntry)] [] [2] malformedEntry 100
    (by decide) (by decide)
  simpa using h

/-! ## Claim C5: GC semantics -/

theorem tsNanos_ofInstant (n : Int) :
    tsNanos ⟨n / 1000000000, n % 1000000000⟩ = n := by
  show n / 1000000000 * 1000000000 + n % 1000000000 = n
  have := Int.ediv_add_emod n 1000000000
  omega

theorem wfExpires_setKey (gd : GossipData) (k : Bytes) (e : MeshEntry)
    (hwf : wfExpires gd = true) (he : tsValid e.expiresAt = true) :
    wfExpires (setKey gd k e) = true := by
  induction gd with
  | nil => simp [setKey, wfExpires, he]
  | cons p rest ih =>
      obtain ⟨k₀, e₀⟩ := p
      simp only [wfExpires, List.all_cons, Bool.and_eq_true] at hwf
      by_cases h0 : k₀ = k
      · simp [setKey, h0, wfExpires, he, hwf.2]
      · simp only [setKey, if_neg h0, wfExpires, List.all_cons, Bool.and_eq_true]
        exact ⟨hwf.1, ih hwf.2⟩

theorem not_mem_keysOf_of_lookupKey_none (gd : GossipData) (k : Bytes)
    (h : lookupKey gd k = none) : k ∉ keysOf gd := by
  induction gd with
  | nil => simp [keysOf]
  | cons p rest ih =>
      obtain ⟨k₀, e₀⟩ := p
      rw [lookupKey_cons] at h
      by_cases hk : k₀ = k
      · rw [if_pos hk] at h
        exact Option.noConfusion h
      · rw [if_neg hk] at h
        unfold keysOf
        rw [List.map_cons]
        intro hmem
        rcases List.mem_cons.mp hmem with hh | hh
        · exact hk hh.symm
        · exact ih h (by simpa [keysOf] using hh)

theorem lookupKey_filter_none (gd : GossipData) (k : Bytes)
    (pred : Bytes × MeshEntry → Bool)
    (h : ∀ e, (k, e) ∈ gd → pred (k, e) = false) :
    lookupKey (gd.filter pred) k = none := by
  induction gd with
  | nil => rfl
  | cons p rest ih =>
      obtain ⟨k₀, e₀⟩ := p
      have hrest := ih (fun e hm => h e (List.mem_cons_of_mem _ hm))
      by_cases hk : k₀ = k
      · subst hk
        rw [List.filter_cons_of_neg (by
          rw [h e₀ (List.mem_cons_self _ _)]
          exact Bool.false_ne_true)]
        exact hrest
      · cases hf : pred (k₀, e₀) with
        | false =>
            rw [List.filter_cons_of_neg (by rw [hf]; exact Bool.false_ne_true)]
            exact hrest
        | true =>
            rw [List.filter_cons_of_pos hf, lookupKey_cons, if_neg hk]
            exact hrest

/-- Characterization of `nlog.GC` on well-formed expiry timestamps: it
keeps exactly the entries expiring strictly after `now`, counts the
deleted ones, and reports no error. -/
theorem nlogGC_char (now : Int) : ∀ st : GossipData, wfExpires st = true →
    nlogGC now st =
      (st.filter (fun p => decide (now < tsNanos p.2.expiresAt)),
       (st.filter (fun p => decide (tsNanos p.2.expiresAt ≤ now))).length,
       none) := by
  intro st
  induction st with
  | nil => intro _; rfl
  | cons p rest ih =>
      intro hwf
      obtain ⟨k₀, e₀⟩ := p
      have hv : tsValid e₀.expiresAt = true := by
        have := List.all_eq_true.mp hwf (k₀, e₀) (List.mem_cons_self _ _)
        simpa using this
      have hwfrest : wfExpires rest = true := by
        apply List.all_eq_true.mpr
        intro x hx
        exact List.all_eq_true.mp hwf x (List.mem_cons_of_mem _ hx)
      have hpt : ptypesTimestamp e₀.expiresAt = .ok (tsNanos e₀.expiresAt) := by
        unfold ptypesTimestamp
        rw [hv]
        rfl
      simp only [nlogGC_cons, hpt]
      by_cases hle : tsNanos e₀.expiresAt ≤ now
      · rw [if_pos hle, ih hwfrest,
          List.filter_cons_of_neg (by simpa using not_lt_of_le hle),
          List.filter_cons_of_pos (by simpa using hle)]
        rfl
      · rw [if_neg hle, ih hwfrest,
          List.filter_cons_of_pos (by simpa using lt_of_not_le hle),
          List.filter_cons_of_neg (by simpa using hle)]

/-- C5: GC at `now` on a state with well-formed expiries deletes exactly
the keys whose expiry is not strictly after `now` and returns the
deletion count with no error; everything that remains expires strictly
after `now`; and with retention 0 an entry appended at `now` is deleted
by a GC run at the same `now`. -/
theorem C5_gc (st : GossipData) (now : Int) (hwf : wfExpires st = true) :
    nlogGC now st =
      (st.filter (fun p => decide (now < tsNanos p.2.expiresAt)),
       (st.filter (fun p => decide (tsNanos p.2.expiresAt ≤ now))).length,
       none) ∧
    (∀ p ∈ (nlogGC now st).1, now < tsNanos p.2.expiresAt) ∧
    (∀ r gkey ghash resolved st',
      lookupKey st (stateKey gkey r) = none →
      tsValid ⟨now / 1000000000, now % 1000000000⟩ = true →
      nlogLog st now 0 r gkey ghash resolved = .ok st' →
      lookupKey (nlogGC now st').1 (stateKey gkey r) = none) := by
  have hchar := nlogGC_char now st hwf
  refine ⟨hchar, ?_, ?_⟩
  · intro p hp
    rw [hchar] at hp
    have hm := List.mem_filter.mp hp
    simpa using hm.2
  · intro r gkey ghash resolved st' hnone hnow hlog
    have hpn : timestampProto now = .ok ⟨now / 1000000000, now % 1000000000⟩ := by
      simp only [timestampProto]
      rw [hnow]
      rfl
    have hpn0 : timestampProto (now + 0) =
        .ok ⟨now / 1000000000, now % 1000000000⟩ := by
      rw [add_zero]
      exact hpn
    have hstore : nlogLog st now 0 r gkey ghash resolved =
        .ok (setKey st (stateKey gkey r)
          ⟨⟨r, gkey, ghash, resolved, ⟨now / 1000000000, now % 1000000000⟩⟩,
            ⟨now / 1000000000, now % 1000000000⟩⟩) := by
      simp only [nlogLog, hnone, nlogStore, hpn, hpn0]
    rw [hstore] at hlog
    have hst' : st' = setKey st (stateKey gkey r)
        ⟨⟨r, gkey, ghash, resolved, ⟨now / 1000000000, now % 1000000000⟩⟩,
          ⟨now / 1000000000, now % 1000000000⟩⟩ := (Except.ok.inj hlog).symm
    subst hst'
    have hwf' : wfExpires (setKey st (stateKey gkey r)
        ⟨⟨r, gkey, ghash, resolved, ⟨now / 1000000000, now % 1000000000⟩⟩,
          ⟨now / 1000000000, now % 1000000000⟩⟩) = true :=
      wfExpires_setKey st _ _ hwf hnow
    rw [nlogGC_char now _ hwf']
    apply lookupKey_filter_none
    intro e hm
    have hknotin : stateKey gkey r ∉ keysOf st :=
      not_mem_keysOf_of_lookupKey_none st _ hnone
    rw [setKey_not_mem st _ _ hknotin] at hm
    rcases List.mem_append.mp hm with hml | hmr
    · exact absurd (by
        show stateKey gkey r ∈ keysOf st
        unfold keysOf
        exact List.mem_map.mpr ⟨_, hml, rfl⟩) hknotin
    · rw [List.mem_singleton] at hmr
      have he : e = ⟨⟨r, gkey, ghash, resolved, ⟨now / 1000000000, now % 1000000000⟩⟩,
          ⟨now / 1000000000, now % 1000000000⟩⟩ := congrArg Prod.snd hmr
      subst he
      simp [tsNanos_ofInstant]

/-- The sample state for the GC instance: one entry expiring at 50 ns. -/
def gcSample : GossipData := [([1], expiredEntry)]

theorem C5_gc_witness :
    nlogGC 100 gcSample =
      (gcSample.filter (fun p => decide ((100 : Int) < tsNanos p.2.expiresAt)),
       (gcSample.filter (fun p => decide (tsNanos p.2.expiresAt ≤ (100 : Int)))).length,
       none) :=
  (C5_gc gcSample 100 (by decide)).1

/-! ## Claim C6: Query semantics -/

/-- C6: Query fails with the "no query parameters" error when the folded
parameters leave the receiver or the group key unset; with both set it
returns exactly the entry stored under the composite key, or the
distinct NotFound sentinel when none is stored. -/
theorem C6_query (st : GossipData) (params : List QueryParam) :
    ((params.foldl applyParam ⟨none, none⟩).recv = none ∨
        (params.foldl applyParam ⟨none, none⟩).groupKey = none →
      nlogQuery st params = .error .noParams) ∧
    (∀ r gk, (params.foldl applyParam ⟨none, none⟩).recv = some r →
      (params.foldl applyParam ⟨none, none⟩).groupKey = some gk →
      (∀ le, lookupKey st (stateKey gk r) = some le →
        nlogQuery st params = .ok [le.entry]) ∧
      (lookupKey st (stateKey gk r) = none →
        nlogQuery st params = .error .notFound)) := by
  constructor
  · intro h
    simp only [nlogQuery]
    rcases h with h | h
    · rw [h]
    · rw [h]
      cases hrv : (params.foldl applyParam ⟨none, none⟩).recv <;> rfl
  · intro r gk hr hgk
    constructor
    · intro le hle
      simp only [nlogQuery, hr, hgk, hle]
    · intro hnone
      simp only [nlogQuery, hr, hgk, hnone]

theorem C6_query_witness :
    nlogQuery [] [QueryParam.qReceiver [114]] = .error .noParams :=
  (C6_query [] [QueryParam.qReceiver [114]]).1 (Or.inr rfl)

/-! ## Claim C4: Merge is commutative, associative, idempotent -/

theorem mergeSpec_idem (x : Option MeshEntry) : mergeSpec x x = x := by
  cases x with
  | none => rfl
  | some pe =>
      rw [mergeSpec_some_some, if_neg (lt_irrefl _)]

theorem mergeSpec_comm_of (x y : Option MeshEntry)
    (hc : ∀ ex ey, x = some ex → y = some ey →
      tsNanos ex.entry.timestamp = tsNanos ey.entry.timestamp → ex = ey) :
    mergeSpec x y = mergeSpec y x := by
  cases x with
  | none => cases y <;> rfl
  | some ex =>
      cases y with
      | none => rfl
      | some ey =>
          rw [mergeSpec_some_some, mergeSpec_some_some]
          rcases lt_trichotomy (tsNanos ex.entry.timestamp)
            (tsNanos ey.entry.timestamp) with hlt | heq | hgt
          · rw [if_pos hlt, if_neg (by omega)]
          · have hxy := hc ex ey rfl rfl heq
            subst hxy
            rfl
          · rw [if_neg (by omega), if_pos hgt]

theorem mergeSpec_assoc (x y z : Option MeshEntry) :
    mergeSpec (mergeSpec x y) z = mergeSpec x (mergeSpec y z) := by
  cases x with
  | none => rw [mergeSpec_none_left, mergeSpec_none_left]
  | some a =>
      cases y with
      | none => rw [mergeSpec_none_right, mergeSpec_none_left]
      | some b =>
          cases z with
          | none => rw [mergeSpec_none_right, mergeSpec_none_right]
          | some c =>
              rw [mergeSpec_some_some b c]
              rw [mergeSpec_some_some a b]
              by_cases h1 : tsNanos a.entry.timestamp < tsNanos b.entry.timestamp
              · rw [if_pos h1]
                by_cases h2 : tsNanos b.entry.timestamp < tsNanos c.entry.timestamp
                · rw [if_pos h2, mergeSpec_some_some, mergeSpec_some_some,
                    if_pos h2, if_pos (by omega)]
                · rw [if_neg h2, mergeSpec_some_some, mergeSpec_some_some,
                    if_neg h2, if_pos h1]
              · rw [if_neg h1]
                by_cases h2 : tsNanos b.entry.timestamp < tsNanos c.entry.timestamp
                · rw [if_pos h2, mergeSpec_some_some]
                · rw [if_neg h2, mergeSpec_some_some, mergeSpec_some_some,
                    if_neg h1, if_neg (by omega)]

/-- Two state maps are drawn from a consistent clock: no two distinct
entries stored for the same key carry equal timestamps. -/
def consistentClock (a b : GossipData) : Bool :=
  a.all fun p => b.all fun q =>
    decide (p.1 = q.1 →
      tsNanos p.2.entry.timestamp = tsNanos q.2.entry.timestamp → p.2 = q.2)

theorem consistentClock_lookup (a b : GossipData)
    (h : consistentClock a b = true) (k : Bytes) (ea eb : MeshEntry)
    (ha : lookupKey a k = some ea) (hb : lookupKey b k = some eb)
    (hts : tsNanos ea.entry.timestamp = tsNanos eb.entry.timestamp) : ea = eb := by
  have hma := lookupKey_mem a k ea ha
  have hmb := lookupKey_mem b k eb hb
  have h1 := List.all_eq_true.mp h (k, ea) hma
  have h2 := List.all_eq_true.mp h1 (k, eb) hmb
  exact of_decide_eq_true h2 rfl hts

/-- C4: on well-formed, duplicate-free state maps drawn from a
consistent clock, `Merge` is commutative, associative and idempotent:
the results agree pointwise in either order, under any grouping, and a
self-merge returns the map unchanged pointwise. -/
theorem C4_merge_algebra (a b c ab ba bc ab_c a_bc aa : GossipData)
    (hwa : wfTimes a = true) (hwb : wfTimes b = true) (hwc : wfTimes c = true)
    (hna : nodupKeys a) (hnb : nodupKeys b) (hnc : nodupKeys c)
    (hcons : consistentClock a b = true)
    (h1 : Merge a b = .ok ab) (h2 : Merge b a = .ok ba)
    (h3 : Merge b c = .ok bc) (h4 : Merge ab c = .ok ab_c)
    (h5 : Merge a bc = .ok a_bc) (h6 : Merge a a = .ok aa) :
    (∀ k, lookupKey ab k = lookupKey ba k) ∧
    (∀ k, lookupKey ab_c k = lookupKey a_bc k) ∧
    (∀ k, lookupKey aa k = lookupKey a k) := by
  obtain ⟨ab', hab', hwab, hnab, hlab⟩ := Merge_ok b a hwa hwb hnb
  rw [h1] at hab'
  obtain rfl : ab = ab' := Except.ok.inj hab'
  obtain ⟨ba', hba', _, _, hlba⟩ := Merge_ok a b hwb hwa hna
  rw [h2] at hba'
  obtain rfl : ba = ba' := Except.ok.inj hba'
  obtain ⟨bc', hbc', hwbc, hnbc, hlbc⟩ := Merge_ok c b hwb hwc hnc
  rw [h3] at hbc'
  obtain rfl : bc = bc' := Except.ok.inj hbc'
  obtain ⟨abc', habc', _, _, hlabc⟩ := Merge_ok c ab hwab hwc hnc
  rw [h4] at habc'
  obtain rfl : ab_c = abc' := Except.ok.inj habc'
  obtain ⟨abc2', habc2', _, _, hlabc2⟩ :=
    Merge_ok bc a hwa hwbc (hnbc hnb)
  rw [h5] at habc2'
  obtain rfl : a_bc = abc2' := Except.ok.inj habc2'
  obtain ⟨aa', haa', _, _, hlaa⟩ := Merge_ok a a hwa hwa hna
  rw [h6] at haa'
  obtain rfl : aa = aa' := Except.ok.inj haa'
  refine ⟨fun k => ?_, fun k => ?_, fun k => ?_⟩
  · rw [hlab k, hlba k]
    apply mergeSpec_comm_of
    intro ex ey hx hy hts
    exact consistentClock_lookup a b hcons k ex ey hx hy hts
  · rw [hlabc k, hlabc2 k, hlab k, hlbc k, mergeSpec_assoc]
  · rw [hlaa k, mergeSpec_idem]

theorem C4_merge_algebra_witness :
    lookupKey [([107], sampleEntry 7)] [107] =
      lookupKey [([107], sampleEntry 7)] [107] ∧
    lookupKey [([107], sampleEntry 9)] [107] =
      lookupKey [([107], sampleEntry 9)] [107] ∧
    lookupKey [([107], sampleEntry 5)] [107] =
      lookupKey [([107], sampleEntry 5)] [107] := by
  have h := C4_merge_algebra [([107], sampleEntry 5)] [([107], sampleEntry 7)]
    [([107], sampleEntry 9)]
    [([107], sampleEntry 7)] [([107], sampleEntry 7)] [([107], sampleEntry 9)]
    [([107], sampleEntry 9)] [([107], sampleEntry 9)] [([107], sampleEntry 5)]
    (by decide) (by decide) (by decide) (by decide) (by decide) (by decide)
    (by decide) rfl rfl rfl rfl rfl rfl
  exact ⟨h.1 [107], h.2.1 [107], h.2.2 [107]⟩

/-! ## Claim C3: mergeDelta -/

/-- C3: `mergeDelta` returns exactly the (key, entry) pairs of the input
that changed the state (insertions of absent keys and strictly-newer
replacements); merging self with the delta yields pointwise the same
state as merging self with the input; and the delta is empty iff the
merge leaves self unchanged. -/
theorem C3_mergeDelta (gd od res delta : GossipData)
    (hwf : wfTimes gd = true) (hwfo : wfTimes od = true) (hnd : nodupKeys od)
    (h : mergeDelta gd od = .ok (res, delta)) :
    (∀ k e, lookupKey delta k = some e ↔
      (lookupKey od k = some e ∧
        (lookupKey gd k = none ∨ ∃ p, lookupKey gd k = some p ∧
          tsNanos p.entry.timestamp < tsNanos e.entry.timestamp))) ∧
    (∀ md mo, Merge gd delta = .ok md → Merge gd od = .ok mo →
      ∀ k, lookupKey md k = lookupKey mo k) ∧
    (delta = [] ↔ ∀ k, lookupKey res k = lookupKey gd k) := by
  obtain ⟨res', d', heq, hwfres, hndres, hwfd, hndd, hlkres, hlkd⟩ :=
    mergeDelta_aux od gd [] hwf hwfo hnd
  have hmd : mergeDelta gd od = .ok (res', d') := heq
  rw [h] at hmd
  have hpair : (res, delta) = (res', d') := Except.ok.inj hmd
  obtain rfl : res = res' := congrArg Prod.fst hpair
  obtain rfl : delta = d' := congrArg Prod.snd hpair
  have hdaSome : ∀ k e', lookupKey od k = some e' →
      lookupKey delta k = if changes gd k e' = true then some e' else none := by
    intro k e' hod
    rw [hlkd k, hod]
    rfl
  have hdaNone : ∀ k, lookupKey od k = none → lookupKey delta k = none := by
    intro k hod
    rw [hlkd k, hod]
    rfl
  have hchangesT : ∀ k e, lookupKey gd k = none → changes gd k e = true := by
    intro k e hg
    unfold changes
    rw [hg]
  have hchangesS : ∀ k e p, lookupKey gd k = some p →
      changes gd k e = decide (tsNanos p.entry.timestamp <
        tsNanos e.entry.timestamp) := by
    intro k e p hg
    unfold changes
    rw [hg]
  refine ⟨?_, ?_, ?_⟩
  · intro k e
    cases hod : lookupKey od k with
    | none =>
        rw [hdaNone k hod]
        constructor
        · intro hcon
          exact Option.noConfusion hcon
        · rintro ⟨h1, _⟩
          exact Option.noConfusion h1
    | some e' =>
        rw [hdaSome k e' hod]
        constructor
        · intro hsome
          by_cases hc : changes gd k e' = true
          · rw [if_pos hc] at hsome
            refine ⟨hsome, ?_⟩
            cases hg : lookupKey gd k with
            | none => exact Or.inl rfl
            | some p =>
                rw [hchangesS k e' p hg] at hc
                have hee : e' = e := Option.some.inj hsome
                refine Or.inr ⟨p, rfl, ?_⟩
                rw [← hee]
                exact of_decide_eq_true hc
          · rw [if_neg hc] at hsome
            exact Option.noConfusion hsome
        · rintro ⟨h1, h2⟩
          have hee : e' = e := Option.some.inj h1
          have hc : changes gd k e' = true := by
            rcases h2 with hg | ⟨p, hg, hlt⟩
            · exact hchangesT k e' hg
            · rw [hchangesS k e' p hg, hee]
              exact decide_eq_true hlt
          rw [if_pos hc, hee]
  · intro md mo hmd2 hmo k
    have hwfdelta : wfTimes delta = true := hwfd rfl
    have hnddelta : nodupKeys delta := hndd (by simp [nodupKeys, keysOf])
    obtain ⟨md', hmd', _, _, hlmd⟩ := Merge_ok delta gd hwf hwfdelta hnddelta
    rw [hmd2] at hmd'
    obtain rfl : md = md' := Except.ok.inj hmd'
    obtain ⟨mo', hmo', _, _, hlmo⟩ := Merge_ok od gd hwf hwfo hnd
    rw [hmo] at hmo'
    obtain rfl : mo = mo' := Except.ok.inj hmo'
    rw [hlmd k, hlmo k]
    cases hod : lookupKey od k with
    | none => rw [hdaNone k hod]
    | some e =>
        rw [hdaSome k e hod]
        by_cases hc : changes gd k e = true
        · rw [if_pos hc]
        · rw [if_neg hc]
          cases hg : lookupKey gd k with
          | none => exact absurd (hchangesT k e hg) hc
          | some p =>
              rw [hchangesS k e p hg, decide_eq_true_eq] at hc
              rw [mergeSpec_none_right, mergeSpec_some_some, if_neg hc]
  · constructor
    · intro hdelta k
      cases hod : lookupKey od k with
      | none => rw [hlkres k, hod, mergeSpec_none_right]
      | some e =>
          have h0 := hdaSome k e hod
          rw [hdelta] at h0
          by_cases hc : changes gd k e = true
          · rw [if_pos hc] at h0
            exact Option.noConfusion h0
          · rw [hlkres k, hod]
            cases hg : lookupKey gd k with
            | none => exact absurd (hchangesT k e hg) hc
            | some p =>
                rw [hchangesS k e p hg, decide_eq_true_eq] at hc
                rw [mergeSpec_some_some, if_neg hc]
    · intro hres
      cases hdel : delta with
      | nil => rfl
      | cons q tl =>
          exfalso
          obtain ⟨k0, e0⟩ := q
          have hl : lookupKey delta k0 = some e0 := by
            rw [hdel, lookupKey_cons, if_pos rfl]
          cases hod : lookupKey od k0 with
          | none =>
              rw [hdaNone k0 hod] at hl
              exact Option.noConfusion hl
          | some e =>
              rw [hdaSome k0 e hod] at hl
              by_cases hc : changes gd k0 e = true
              · rw [if_pos hc] at hl
                have hr := hres k0
                rw [hlkres k0, hod] at hr
                cases hg : lookupKey gd k0 with
                | none =>
                    rw [hg, mergeSpec_none_left] at hr
                    exact Option.noConfusion hr
                | some p =>
                    rw [hchangesS k0 e p hg, decide_eq_true_eq] at hc
                    rw [hg, mergeSpec_some_some, if_pos hc] at hr
                    have hep : e = p := Option.some.inj hr
                    rw [hep] at hc
                    exact absurd hc (lt_irrefl _)
              · rw [if_neg hc] at hl
                exact Option.noConfusion hl

theorem C3_mergeDelta_witness :
    ([([107], sampleEntry 7)] : GossipData) = [] ↔
      ∀ k, lookupKey [([107], sampleEntry 7)] k =
        lookupKey [([107], sampleEntry 5)] k :=
  (C3_mergeDelta [([107], sampleEntry 5)] [([107], sampleEntry 7)]
    [([107], sampleEntry 7)] [([107], sampleEntry 7)]
    (by decide) (by decide) (by decide) rfl).2.2

/-! ## Claim C7: Encode block structure and block sizes -/

/-- C7 (amended): `Encode` splits the framed entries into non-empty
chunks whose concatenation is exactly the entry list, so every entry's
framed encoding is contained in one block; a block may exceed 1 MiB, but
only by its final entry's frame (the bytes before the final entry fit in
1 MiB); and the empty state yields an empty list. -/
theorem C7_encode_blocks (gd : GossipData) :
    ∃ chunks : List (List MeshEntry),
      gossipEncode gd = chunks.map blockBytes ∧
      chunks.flatten = gd.map Prod.snd ∧
      (∀ p ∈ gd, ∃ c, c ∈ chunks ∧ p.2 ∈ c) ∧
      (∀ c ∈ chunks, c ≠ [] ∧ (blockBytes c.dropLast).length ≤ maxSize) ∧
      (gd = [] → gossipEncode gd = []) := by
  obtain ⟨h1, h2, h3⟩ := gossipEncode_chunks gd
  refine ⟨chunkLoop (gd.map Prod.snd) [] [] 0, h1, h2, ?_, h3, ?_⟩
  · intro p hp
    have hmem : p.2 ∈ (chunkLoop (gd.map Prod.snd) [] [] 0).flatten := by
      rw [h2]
      exact List.mem_map.mpr ⟨p, hp, rfl⟩
    obtain ⟨c, hc, hpc⟩ := List.mem_flatten.mp hmem
    exact ⟨c, hc, hpc⟩
  · intro hnil
    subst hnil
    rfl

/-- A group key of 2^20 zero bytes. -/
def bigKey : Bytes := List.replicate 1048576 0

/-- A mesh entry whose framed encoding exceeds 1 MiB. -/
def bigEntry : MeshEntry := ⟨⟨[], bigKey, [], false, ⟨0, 0⟩⟩, ⟨0, 0⟩⟩

/-- The singleton state map holding `bigEntry`. -/
def bigState : GossipData := [(stateKey bigKey [], bigEntry)]

theorem bigEntry_payload_length : (encodeMeshEntry bigEntry).length = 1048590 := by
  show (encBytes [] ++ encBytes bigKey ++ encBytes [] ++ encBool false ++
    encTs ⟨0, 0⟩ ++ encTs ⟨0, 0⟩).length = 1048590
  have h2 : (encBytes bigKey).length = 1048579 := by
    show (varint bigKey.length ++ bigKey).length = 1048579
    rw [List.length_append]
    have hk : bigKey.length = 1048576 := by
      show (List.replicate 1048576 (0 : Nat)).length = 1048576
      rw [List.length_replicate]
    rw [hk]
    rfl
  simp only [List.length_append, h2]
  rfl

theorem writeDelimited_bigEntry_length :
    (writeDelimited bigEntry).length = 1048593 := by
  show (varint (encodeMeshEntry bigEntry).length ++ encodeMeshEntry bigEntry).length = _
  rw [List.length_append, bigEntry_payload_length]
  rfl

theorem encodeLoop_nil (buf : List Nat) (res : List (List Nat)) (n : Nat) :
    encodeLoop [] buf res n = if 0 < buf.length then res ++ [buf] else res := rfl

theorem encodeLoop_cons (k : Bytes) (e : MeshEntry) (rest : GossipData)
    (buf : List Nat) (res : List (List Nat)) (n : Nat) :
    encodeLoop ((k, e) :: rest) buf res n =
      if n + (writeDelimited e).length > maxSize then
        encodeLoop rest [] (res ++ [buf ++ writeDelimited e])
          (n + (writeDelimited e).length)
      else encodeLoop rest (buf ++ writeDelimited e) res
          (n + (writeDelimited e).length) := rfl

theorem gossipEncode_bigState :
    gossipEncode bigState = [writeDelimited bigEntry] := by
  show encodeLoop [(stateKey bigKey [], bigEntry)] [] [] 0 = _
  rw [encodeLoop_cons,
    if_pos (by rw [writeDelimited_bigEntry_length]; norm_num [maxSize]),
    encodeLoop_nil, if_neg (by simp), List.nil_append, List.nil_append]

/-- C7 counterexample: the single block of `Encode` on `bigState` is
strictly larger than 1 MiB, refuting "every block is no larger than
1 MiB (1024*1024 bytes)". -/
theorem C7_encode_blocks_counterexample :
    ¬ (∀ b ∈ gossipEncode bigState, b.length ≤ 1024 * 1024) := by
  intro h
  have hb := h (writeDelimited bigEntry)
    (by rw [gossipEncode_bigState]; exact List.mem_singleton.mpr rfl)
  rw [writeDelimited_bigEntry_length] at hb
  norm_num at hb

/-! ## Claim C8: snapshot and encode round-trips -/

/-- C8: for a state whose every key is the composite key computed from
its own entry's group key and receiver, Snapshot followed by
loadSnapshot reproduces the state pointwise, and decoding the
concatenation of Encode's blocks reproduces it as well. -/
theorem C8_roundtrip (st : GossipData)
    (hkeys : ∀ p ∈ st, p.1 = stateKey p.2.entry.groupKey p.2.entry.receiver)
    (hnd : nodupKeys st) :
    (∃ st', loadSnapshot (snapshotBytes st) = .ok st' ∧
      ∀ k, lookupKey st' k = lookupKey st k) ∧
    (∃ st'', decodeGossipData (gossipEncode st).flatten = .ok st'' ∧
      ∀ k, lookupKey st'' k = lookupKey st k) := by
  have hload := loadSnapshot_snapshotBytes st hkeys hnd
  refine ⟨⟨st, hload, fun k => rfl⟩, ?_⟩
  obtain ⟨h1, h2, _⟩ := gossipEncode_chunks st
  have hflat : (gossipEncode st).flatten = snapshotBytes st := by
    rw [h1, flatten_map_blockBytes, h2, snapshotBytes_eq]
  refine ⟨st, ?_, fun k => rfl⟩
  show decodeGossipData (gossipEncode st).flatten = .ok st
  rw [hflat]
  exact hload

/-- Two sample entries and the self-keyed state built from them. -/
def rtEntryA : MeshEntry := ⟨⟨[2], [1], [], true, ⟨0, 5⟩⟩, ⟨0, 6⟩⟩

def rtEntryB : MeshEntry := ⟨⟨[4], [3], [7], false, ⟨0, 8⟩⟩, ⟨0, 9⟩⟩

def rtState : GossipData :=
  [(stateKey [1] [2], rtEntryA), (stateKey [3] [4], rtEntryB)]

theorem C8_roundtrip_witness :
    (∃ st', loadSnapshot (snapshotBytes rtState) = .ok st' ∧
      ∀ k, lookupKey st' k = lookupKey rtState k) ∧
    (∃ st'', decodeGossipData (gossipEncode rtState).flatten = .ok st'' ∧
      ∀ k, lookupKey st'' k = lookupKey rtState k) :=
  C8_roundtrip rtState (by decide) (by decide)

end Nflog
